import Mathlib

/-!
Verification development for the rcsgrep repository (src/rcsfile.py).

The file shallowly embeds the RCSFile model and its grep engine:
pure Python functions become Lean functions, the mutable state of the
grep scan loop becomes explicit state passing, Python exceptions become
an explicit error type (PyErr) threaded through Except, and Python
string/list primitives are modelled on List Char / List values.

A regular expression pattern is abstracted as a Boolean predicate
P : String -> Bool standing for the truthiness of matcher.match(line)
(re.match semantics: the match is anchored at column 0).  For concrete
test patterns that are plain literals, litMatch below gives the exact
re.match behaviour.
-/

namespace Rcsgrep

/-- Python string comparison (lexicographic by code point) on char lists. -/
def charListLt : List Char → List Char → Bool
  | [], [] => false
  | [], _ :: _ => true
  | _ :: _, [] => false
  | a :: as, b :: bs => if a < b then true else if b < a then false else charListLt as bs

/-- Python operator < on strings. -/
def pyStrLt (a b : String) : Bool := charListLt a.data b.data

/-- Truthiness of wraplines.match(line) for the regex matching lines that
end in a backslash (the compiled pattern at src/rcsfile.py line 293);
lines here never contain a newline, so this is exactly: the string is
nonempty and its last character is a backslash. -/
def endsBackslash (s : String) : Bool :=
  match s.data.getLast? with
  | some c => c = '\\'
  | none => false

def isDigitChar (c : Char) : Bool := '0' ≤ c && c ≤ '9'

/-- Python int() on a nonempty string of decimal digits. -/
def digitsToNat (ds : List Char) : Nat :=
  ds.foldl (fun a c => 10 * a + (c.toNat - 48)) 0

/-- Truthiness and captures of re.match for the edit-command regexes
delc and insc at src/rcsfile.py lines 298-300: the command letter k,
then one or more digits (group line), one space, one or more digits
(group lines); any trailing characters are ignored by re.match. -/
def parseCmd (k : Char) (s : String) : Option (Nat × Nat) :=
  match s.data with
  | [] => none
  | c :: rest =>
    if c = k then
      let d1 := rest.takeWhile isDigitChar
      let r1 := rest.dropWhile isDigitChar
      if d1 = [] then none
      else
        match r1 with
        | ' ' :: r2 =>
          let d2 := r2.takeWhile isDigitChar
          if d2 = [] then none else some (digitsToNat d1, digitsToNat d2)
        | _ => none
    else none

def splitSepAux (sep : Char) : List Char → List Char → List (List Char)
  | [], acc => [acc.reverse]
  | c :: cs, acc =>
    if c = sep then acc.reverse :: splitSepAux sep cs []
    else splitSepAux sep cs (c :: acc)

/-- Python str.split(sep) for a single-character separator. -/
def pySplitOn (sep : Char) (s : String) : List String :=
  (splitSepAux sep s.data []).map List.asString

/-- Python text.split(chr 10), as used on every delta text. -/
def pySplit (s : String) : List String := pySplitOn '\n' s

/-- Python sep.join(parts). -/
def joinSep (sep : String) : List String → String
  | [] => ""
  | [x] => x
  | x :: y :: xs => x ++ sep ++ joinSep sep (y :: xs)

/-- Truthiness of re.match(pat, s) when pat is a plain literal with no
regex metacharacters: pat is a prefix of s. -/
def litMatch (pat : String) (s : String) : Bool := pat.data.isPrefixOf s.data

/-- Joins lines with a newline after every line, producing the literal
content of a file whose last line is terminated. -/
def unlines (ls : List String) : String :=
  ls.foldr (fun l acc => l ++ "\n" ++ acc) ""

/-- Python exceptions that the modelled code can raise. -/
inductive PyErr where
  | valueError (msg : String)
  | nameError (name : String)
  | attributeError (msg : String)
  | keyError (key : String)
  | indexError
deriving DecidableEq

/-- A delta block of the parsed RCS file.  A missing optional revision
number (pyparsing Optional with no match) reads back as the empty
string, matching the truthiness tests in the source. -/
structure Delta where
  deltanum : String
  date : String
  author : String
  state : String
  branches : List String
  next : String
deriving DecidableEq

/-- A deltatext block: for head the literal revision content, for every
other revision an edit script. -/
structure DeltaText where
  deltanum : String
  log : String
  text : String
deriving DecidableEq

/-- The parsed RCSFile model (the fields of RCSFile.__init__ that the
claims touch; admin fields other than head and symbols are never read
by the modelled operations).  deltas and deltatexts are kept in parse
order; the Python dicts keyed by deltanum are recovered by lookup,
with the last entry winning as in a Python dict comprehension. -/
structure RCSFile where
  filename : String
  head : String
  symbols : List String
  deltas : List Delta
  deltatexts : List DeltaText

/-- Dict access self._deltas[r] (last entry wins on duplicate keys). -/
def lookupDelta (f : RCSFile) (r : String) : Option Delta :=
  f.deltas.reverse.find? (fun d => d.deltanum = r)

/-- Dict access self._deltatexts[r] (last entry wins on duplicate keys). -/
def lookupDeltatext (f : RCSFile) (r : String) : Option DeltaText :=
  f.deltatexts.reverse.find? (fun t => t.deltanum = r)

/-- RCSFile.get_delta.  On a missing revision the except branch evaluates
the format expression with the unbound name delta (the parameter is
called deltanum), so Python raises NameError before the intended
ValueError is ever constructed. -/
def get_delta (f : RCSFile) (deltanum : String) : Except PyErr Delta :=
  match lookupDelta f deltanum with
  | some d => .ok d
  | none => .error (.nameError "delta")

/-- RCSFile.get_deltatext. -/
def get_deltatext (f : RCSFile) (deltanum : String) : Except PyErr DeltaText :=
  match lookupDeltatext f deltanum with
  | some t => .ok t
  | none => .error (.valueError ("Delta " ++ deltanum ++ " does not exist."))

/-- RCSFile.get_head.  When the admin head is set (truthy, i.e. nonempty)
it is returned.  Otherwise the fallback list comprehension iterates the
_deltas dict, which yields its string keys, and evaluates d.deltanum on
each str d: with at least one delta this raises AttributeError; with no
deltas the comprehension is empty and max() over the empty filtered
generator raises ValueError. -/
def get_head (f : RCSFile) : Except PyErr String :=
  if f.head = "" then
    match f.deltas with
    | [] => .error (.valueError "max() arg is an empty sequence")
    | _ :: _ => .error (.attributeError "str object has no attribute deltanum")
  else .ok f.head

/-- RCSFile.get_next_tuples: (deltanum, next) for every delta.  The
Python dict iteration order is arbitrary; parse order is used here,
and every consumer modelled below is insensitive to the order for
models with distinct delta numbers. -/
def get_next_tuples (f : RCSFile) : List (String × String) :=
  f.deltas.map (fun d => (d.deltanum, d.next))

/-- The search-and-pop inside get_ancestor_tuples: find the first tuple
whose first component equals key, return it with the list without it. -/
def findPop (key : String) : List (String × String) →
    Option ((String × String) × List (String × String))
  | [] => none
  | p :: rest =>
    if p.1 = key then some (p, rest)
    else
      match findPop key rest with
      | none => none
      | some (q, rest2) => some (q, p :: rest2)

/-- The while loop of get_ancestor_tuples, gathering the tuples after the
first one; the Bool records whether the missing-delta warning fired.
Each successful search consumes one element of rem, so fuel
rem.length + 1 is never exhausted; the fuel only makes the recursion
structural. -/
def ancLoop : Nat → (String × String) → List (String × String) →
    List (String × String) × Bool
  | 0, _, _ => ([], false)
  | fuel + 1, last, rem =>
    if last.2 = "" then ([], false)
    else
      match findPop last.2 rem with
      | none => ([], true)
      | some (q, rem2) =>
        let r := ancLoop fuel q rem2
        (q :: r.1, r.2)

/-- RCSFile.get_ancestor_tuples.  If deltanum is not among the deltas the
first loop leaves ancestors empty and ancestors[-1] raises IndexError. -/
def get_ancestor_tuples (f : RCSFile) (deltanum : String) :
    Except PyErr (List (String × String) × Bool) :=
  match findPop deltanum (get_next_tuples f) with
  | none => .error .indexError
  | some (p, rest) =>
    let r := ancLoop (rest.length + 1) p rest
    .ok (p :: r.1, r.2)

/-- RCSFile.get_tags: symbols are kept as the raw sym:num strings of the
admin block, as self._admin.symbols is in the source. -/
def get_tags (f : RCSFile) (deltanum : String) : List String :=
  (f.symbols.filter (fun x => (":" ++ deltanum).data.isSuffixOf x.data)).map
    (fun x => (pySplitOn ':' x).headD "")

/-- RCSFile.get_author: raw dict access, KeyError on a missing revision. -/
def get_author (f : RCSFile) (deltanum : String) : Except PyErr String :=
  match lookupDelta f deltanum with
  | some d => .ok d.author
  | none => .error (.keyError deltanum)

/-- RCSFile.get_date: raw dict access, KeyError on a missing revision. -/
def get_date (f : RCSFile) (deltanum : String) : Except PyErr String :=
  match lookupDelta f deltanum with
  | some d => .ok d.date
  | none => .error (.keyError deltanum)

/-- RCSFile.get_message: raw dict access, KeyError on a missing revision. -/
def get_message (f : RCSFile) (deltanum : String) : Except PyErr String :=
  match lookupDeltatext f deltanum with
  | some t => .ok t.log
  | none => .error (.keyError deltanum)

/-- A grep match tuple (revision, lineno, line).  Line numbers are Int
because the adjustment arithmetic of the engine is over Python ints. -/
abbrev GMatch := String × Int × String

/-- An entry of the insertlines list of grep:
(revision, startline of the insert command, 1-based offset in the
insert block, line text). -/
abbrev InsEntry := String × Nat × Nat × String

/-- The status variable of the grep scan loop together with the
startline / nolines / insertline counters it guards.  DELETE status is
entered and immediately resolved within the same loop iteration (the
delc branch falls through to the deletion filter, which resets the
status), so only INSERT persists across lines. -/
inductive Mode where
  | noCmd : Mode
  | ins (startline nolines insertline : Nat) : Mode
deriving DecidableEq

/-- The mutable state of grep's per-delta scan over the split delta
text. -/
structure ScanState where
  gmatches : List GMatch
  dels : List (Nat × Nat)
  inss : List (Nat × Nat)
  insertlines : List InsEntry
  mode : Mode
  takenext : Bool
deriving DecidableEq

/-- One iteration of the scan loop of grep (src/rcsfile.py lines
328-371) on the line with 1-based index i; total is the number of split
lines (the head branch skips the final fragment i = total). -/
def scanStep (P : String → Bool) (wrap : Bool) (curr : String) (isHead : Bool)
    (total : Nat) (st : ScanState) (i : Nat) (line : String) : ScanState :=
  if isHead && !(i == total) then
    if P line || st.takenext then
      { st with gmatches := st.gmatches ++ [(curr, (i : Int), line)],
                takenext := wrap && endsBackslash line }
    else st
  else
    match parseCmd 'd' line with
    | some (m, n) =>
      { st with dels := st.dels ++ [(m, n)],
                gmatches := st.gmatches.filter (fun mt =>
                  !(mt.1 == curr && decide ((m : Int) ≤ mt.2.1) &&
                    decide (mt.2.1 < (m : Int) + (n : Int)))),
                mode := .noCmd }
    | none =>
      match parseCmd 'a' line with
      | some (m, n) => { st with inss := st.inss ++ [(m, n)], mode := .ins m n 1 }
      | none =>
        match st.mode with
        | .noCmd => st
        | .ins m n k =>
          if k ≤ n then
            if P line || st.takenext then
              { st with insertlines := st.insertlines ++ [(curr, m, k, line)],
                        takenext := wrap && endsBackslash line,
                        mode := .ins m n (k + 1) }
            else { st with mode := .ins m n (k + 1) }
          else { st with mode := .noCmd }

/-- Python enumerate(xs, i). -/
def withIndex (i : Nat) : List String → List (Nat × String)
  | [] => []
  | l :: ls => (i, l) :: withIndex (i + 1) ls

def scanLines (P : String → Bool) (wrap : Bool) (curr : String) (isHead : Bool)
    (total : Nat) : ScanState → List (Nat × String) → ScanState
  | st, [] => st
  | st, (i, l) :: rest =>
    scanLines P wrap curr isHead total (scanStep P wrap curr isHead total st i l) rest

/-- The full scan of one delta text, starting from the per-delta
initial state (status None, takenext False, empty command lists). -/
def scanDelta (P : String → Bool) (wrap : Bool) (curr : String) (isHead : Bool)
    (lines : List String) (ms : List GMatch) : ScanState :=
  scanLines P wrap curr isHead lines.length
    { gmatches := ms, dels := [], inss := [], insertlines := [],
      mode := .noCmd, takenext := false } (withIndex 1 lines)

/-- Python tuple < on (int, int). -/
def pairLt (a b : Nat × Nat) : Bool :=
  decide (a.1 < b.1) || (a.1 == b.1 && decide (a.2 < b.2))

/-- Python tuple < on grep match tuples (str, int, str). -/
def matchLt (a b : GMatch) : Bool :=
  pyStrLt a.1 b.1 ||
    (a.1 == b.1 && (decide (a.2.1 < b.2.1) ||
      (a.2.1 == b.2.1 && pyStrLt a.2.2 b.2.2)))

/-- Stable insertion step: place x before the first element it is not
greater than.  With the total tuple orders used here, two elements
neither of which is less than the other are equal, so this computes the
same list as Python list.sort / sorted. -/
def insertSorted (lt : α → α → Bool) (x : α) : List α → List α
  | [] => [x]
  | y :: ys => if lt y x then y :: insertSorted lt x ys else x :: y :: ys

/-- Python sorted(l) for the comparison lt. -/
def pySort (lt : α → α → Bool) (l : List α) : List α :=
  l.foldr (insertSorted lt) []

/-- sum(x[1] for x in ps if x[0] < cut). -/
def sumBelow (ps : List (Nat × Nat)) (cut : Int) : Int :=
  ps.foldl (fun acc x => if (x.1 : Int) < cut then acc + (x.2 : Int) else acc) 0

/-- The grep line-number adjustment of prior matches (src/rcsfile.py
lines 379-389): translate source line numbers of matches labelled curr
into the numbering of curr itself. -/
def adjustMatches (curr : String) (dels inss : List (Nat × Nat))
    (ms : List GMatch) : List GMatch :=
  ms.map (fun m =>
    if m.1 = curr then (m.1, m.2.1 + sumBelow inss m.2.1 - sumBelow dels m.2.1, m.2.2)
    else m)

/-- The deliter advance in the match_overlap search: consume deletions
while the current value's startline is below target; on exhaustion keep
the last value.  The initial dummy value is (-1, -1). -/
def advanceDel (cur : Int) (rem : List (Nat × Nat)) (target : Nat) :
    Int × List (Nat × Nat) :=
  match rem with
  | [] => if cur < (target : Int) then (cur, []) else (cur, rem)
  | d :: rest =>
    if cur < (target : Int) then advanceDel (d.1 : Int) rest target
    else (cur, rem)

/-- The for-ins loop computing match_overlap (src/rcsfile.py lines
395-410) for an insertlines entry whose startline is anchor. -/
def overlapGo (anchor : Nat) : List (Nat × Nat) → Int → List (Nat × Nat) → Nat
  | [], _, _ => 0
  | ins :: rest, cur, rem =>
    if ins.1 = anchor then
      let a := advanceDel cur rem ins.1
      if a.1 = (ins.1 : Int) then 1 else overlapGo anchor rest a.1 a.2
    else overlapGo anchor rest cur rem

def matchOverlap (inss dels : List (Nat × Nat)) (anchor : Nat) : Nat :=
  overlapGo anchor inss (-1) dels

/-- The per-entry adjustment of insertlines (src/rcsfile.py lines
391-420): inserted line numbers become startline + offset + earlier
insertions - earlier deletions - match_overlap. -/
def adjustInsert (dels inss : List (Nat × Nat)) (e : InsEntry) : GMatch :=
  (e.1, (e.2.1 : Int) + (e.2.2.1 : Int) + sumBelow inss (e.2.1 : Int) -
    sumBelow dels (e.2.1 : Int) - (matchOverlap inss dels e.2.1 : Int),
    e.2.2.2)

/-- The backwards count and suffix sort of src/rcsfile.py lines 428-434:
the trailing run of matches labelled curr is re-sorted; when the run is
empty first_of_curr stays -1 and the one-element slice sort is a no-op. -/
def sortSuffix (curr : String) (ms : List GMatch) : List GMatch :=
  let t := (ms.reverse.takeWhile (fun m => m.1 == curr)).length
  if t = 0 then ms
  else ms.take (ms.length - t) ++ pySort matchLt (ms.drop (ms.length - t))

/-- The whole body of the for-delta loop of grep for one delta
(curr, next), given the first chain element for the head test
delta == ancestors[0].  The final propagation loop appends a copy
labelled next of every match labelled curr; the Python loop appends
while iterating, which for next distinct from curr visits the appended
copies without acting on them, so it equals this batched extension
(for next equal to curr the Python loop would not terminate; chains
produced by get_ancestor_tuples never repeat a revision). -/
def processDelta (P : String → Bool) (wrap : Bool) (f : RCSFile)
    (first delta : String × String) (ms : List GMatch) :
    Except PyErr (List GMatch) :=
  match get_deltatext f delta.1 with
  | .error e => .error e
  | .ok dt =>
    let st := scanDelta P wrap delta.1 (decide (delta = first)) (pySplit dt.text) ms
    let dels := pySort pairLt st.dels
    let inss := pySort pairLt st.inss
    let ms1 := adjustMatches delta.1 dels inss st.gmatches ++
      st.insertlines.map (adjustInsert dels inss)
    let ms2 := sortSuffix delta.1 ms1
    if delta.2 = "" then .ok ms2
    else .ok (ms2 ++ (ms2.filter (fun m => m.1 == delta.1)).map
      (fun m => (delta.2, m.2.1, m.2.2)))

def grepMatchesLoop (P : String → Bool) (wrap : Bool) (f : RCSFile)
    (first : String × String) : List (String × String) → List GMatch →
    Except PyErr (List GMatch)
  | [], ms => .ok ms
  | d :: rest, ms =>
    match processDelta P wrap f first d ms with
    | .error e => .error e
    | .ok ms2 => grepMatchesLoop P wrap f first rest ms2

/-- One output attribute of a formatted grep tuple. -/
inductive Field where
  | str (s : String)
  | int (n : Int)
  | tags (ts : List String)
deriving DecidableEq

/-- One directive of the grep format string (src/rcsfile.py lines
445-473). -/
def formatAttr (f : RCSFile) (m : GMatch) (c : Char) : Except PyErr Field :=
  if c = 'r' then .ok (.str m.1)
  else if c = 'l' then .ok (.int m.2.1)
  else if c = 'L' then .ok (.str m.2.2)
  else if c = 'a' then
    match get_author f m.1 with
    | .error e => .error e
    | .ok a => .ok (.str a)
  else if c = 'd' then
    match get_date f m.1 with
    | .error e => .error e
    | .ok d => .ok (.str d)
  else if c = 'D' then
    match get_date f m.1 with
    | .error e => .error e
    | .ok d =>
      let parts := pySplitOn '.' d
      let parts := if (parts.headD "").length = 2 then
        ("19" ++ parts.headD "") :: parts.tail else parts
      .ok (.str (joinSep "-" (parts.take 3) ++ "T" ++ joinSep ":" (parts.drop 3) ++ "Z"))
  else if c = 't' then .ok (.tags (get_tags f m.1))
  else if c = 'f' then .ok (.str f.filename)
  else if c = 'm' then
    match get_message f m.1 with
    | .error e => .error e
    | .ok msg => .ok (.str msg)
  else .error (.valueError ("Unknown formatting option " ++ ⟨[c]⟩ ++ "."))

/-- The inner for-attr loop building one formatted tuple. -/
def formatOne (f : RCSFile) (m : GMatch) : List Char → Except PyErr (List Field)
  | [] => .ok []
  | c :: cs =>
    match formatAttr f m c with
    | .error e => .error e
    | .ok fld =>
      match formatOne f m cs with
      | .error e => .error e
      | .ok rest => .ok (fld :: rest)

def formatLoop (f : RCSFile) (fmt : List Char) : List GMatch →
    Except PyErr (List (List Field))
  | [] => .ok []
  | m :: rest =>
    match formatOne f m fmt with
    | .error e => .error e
    | .ok t =>
      match formatLoop f fmt rest with
      | .error e => .error e
      | .ok ts => .ok (t :: ts)

/-- The format stage of grep: the default format rlL short-circuits and
returns the raw match tuples, identified here with their field lists. -/
def formatAll (f : RCSFile) (fmt : String) (ms : List GMatch) :
    Except PyErr (List (List Field)) :=
  if fmt = "rlL" then .ok (ms.map (fun m => [.str m.1, .int m.2.1, .str m.2.2]))
  else formatLoop f fmt.data ms

/-- RCSFile.grep (src/rcsfile.py lines 247-475). -/
def grep (f : RCSFile) (P : String → Bool) (fmt : String) (wrap : Bool) :
    Except PyErr (List (List Field)) :=
  match get_head f with
  | .error e => .error e
  | .ok h =>
    match get_ancestor_tuples f h with
    | .error e => .error e
    | .ok (chain, _) =>
      match grepMatchesLoop P wrap f (chain.headD ("", "")) chain [] with
      | .error e => .error e
      | .ok ms => formatAll f fmt ms

/-- cmp_rcsdates (src/rcsfile.py lines 106-116): prefix 19 to any
17-character date, then return the Python min of the two, i.e. the
second iff it is strictly smaller. -/
def cmp_rcsdates (date1 date2 : String) : String :=
  let d1 := if date1.length = 17 then "19" ++ date1 else date1
  let d2 := if date2.length = 17 then "19" ++ date2 else date2
  if pyStrLt d2 d1 then d2 else d1

/-- The normalisation described by the claim for cmp_rcsdates: prefix 19
to a 17-character (two-digit-year) RCS date. -/
def normTwoDigitYear (d : String) : String :=
  if d.length = 17 then "19" ++ d else d

def pyStrToNat (s : String) : Nat := digitsToNat s.data

/-- Component-wise numeric (lexicographic) strict order on parsed
revision numbers, as Python compares lists of ints. -/
def lexLtNat : List Nat → List Nat → Bool
  | [], [] => false
  | [], _ :: _ => true
  | _ :: _, [] => false
  | a :: as, b :: bs => if a < b then true else if b < a then false else lexLtNat as bs

/-- From the claim's words (the intended get_head fallback): among the
2-component revision numbers of the deltas, the maximum under
component-wise numeric ordering, rejoined with dots; none when no
2-component revision number exists.  The code never reaches this result
because its fallback raises (see get_head). -/
def specGetHeadFallback (f : RCSFile) : Option String :=
  match (f.deltas.map (fun d => (pySplitOn '.' d.deltanum).map pyStrToNat)).filter
      (fun l => l.length = 2) with
  | [] => none
  | x :: xs => some (joinSep "."
      ((xs.foldl (fun a b => if lexLtNat a b then b else a) x).map Nat.repr))

/-- The set of recognised grep format directives. -/
def isValidAttr (c : Char) : Bool :=
  c == 'r' || c == 'l' || c == 'L' || c == 'a' || c == 'd' || c == 'D' ||
  c == 't' || c == 'f' || c == 'm'

/-- Reference recursion for the head-branch scan of grep: the matches it
emits and the final takenext flag, scanning lines from 1-based index i
with takenext flag tn.  Proved below to agree with scanLines on the
head delta. -/
def hdScan (curr : String) (P : String → Bool) (wrap : Bool) :
    Nat → Bool → List String → List GMatch × Bool
  | _, tn, [] => ([], tn)
  | i, tn, l :: ls =>
    if P l || tn then
      let r := hdScan curr P wrap (i + 1) (wrap && endsBackslash l) ls
      ((curr, (i : Int), l) :: r.1, r.2)
    else hdScan curr P wrap (i + 1) tn ls

/-- Reference recursion for the payload scan of one insert block of an
edit script: the insertlines entries it emits and the final takenext
flag, scanning payload lines from 1-based block offset k. -/
def insScan (curr : String) (P : String → Bool) (wrap : Bool) (m : Nat) :
    Nat → Bool → List String → List InsEntry × Bool
  | _, tn, [] => ([], tn)
  | k, tn, l :: ls =>
    if P l || tn then
      let r := insScan curr P wrap m (k + 1) (wrap && endsBackslash l) ls
      ((curr, m, k, l) :: r.1, r.2)
    else insScan curr P wrap m (k + 1) tn ls

/-- A delta record with fixed metadata for the concrete models below. -/
def mkDelta (num nxt : String) : Delta :=
  ⟨num, "2011.01.01.00.00.00", "rak", "Exp", [], nxt⟩

/-- A single-revision model: head only, whose delta text is the literal
file content obtained by terminating every line of ls. -/
def mkSingleFile (rev date author log : String) (ls : List String) : RCSFile :=
  ⟨"?", rev, [], [⟨rev, date, author, "Exp", [], ""⟩], [⟨rev, log, unlines ls⟩]⟩

/-- Spec scenario 1: head 1.1 contains hello, world. -/
def singleHelloFile : RCSFile :=
  mkSingleFile "1.1" "2011.01.01.00.00.00" "rak" "log" ["hello", "world"]

/-- Spec scenario 2: head 1.2 = foo, bar; the script of 1.1 is empty. -/
def twoRevPreservedFile : RCSFile :=
  ⟨"?", "1.2", [], [mkDelta "1.2" "1.1", mkDelta "1.1" ""],
   [⟨"1.2", "l2", "foo\nbar\n"⟩, ⟨"1.1", "l1", ""⟩]⟩

/-- Spec scenario 3: head 1.2 = a, b, c; the script of 1.1 is d2 1. -/
def deletionFile : RCSFile :=
  ⟨"?", "1.2", [], [mkDelta "1.2" "1.1", mkDelta "1.1" ""],
   [⟨"1.2", "l2", "a\nb\nc\n"⟩, ⟨"1.1", "l1", "d2 1\n"⟩]⟩

/-- Spec scenario 5: the script of 1.1 is d3 2 followed by a3 1 with
payload X. -/
def overlapFile : RCSFile :=
  ⟨"?", "1.2", [], [mkDelta "1.2" "1.1", mkDelta "1.1" ""],
   [⟨"1.2", "l2", "p\nq\nr\ns\n"⟩, ⟨"1.1", "l1", "d3 2\na3 1\nX\n"⟩]⟩

/-- Spec scenario 6: head contains a continuation line. -/
def contFile : RCSFile :=
  mkSingleFile "1.1" "2011.01.01.00.00.00" "rak" "log" ["foo\\", "bar", "qux"]

/-- A model whose admin head is unset, with trunk revisions 1.10 and
1.9 (numeric maximum 1.10). -/
def noHeadFile : RCSFile :=
  ⟨"?", "", [], [mkDelta "1.10" "1.9", mkDelta "1.9" ""],
   [⟨"1.10", "l", "x\n"⟩, ⟨"1.9", "l", ""⟩]⟩

/-- A model whose only delta 1.2 names a parent 1.1 that does not
exist: the ancestor chain breaks after its first element. -/
def brokenChainFile : RCSFile :=
  ⟨"?", "1.2", [], [mkDelta "1.2" "1.1"], [⟨"1.2", "l2", "a\n"⟩]⟩

/-! ## Properties of the Python string order -/

theorem charListLt_irrefl (as : List Char) : charListLt as as = false := by
  induction as with
  | nil => rfl
  | cons a as ih => simp [charListLt, ih]

theorem charListLt_asymm : ∀ as bs : List Char,
    charListLt as bs = true → charListLt bs as = false
  | [], [] => by simp [charListLt]
  | [], _ :: _ => by simp [charListLt]
  | _ :: _, [] => by simp [charListLt]
  | a :: as, b :: bs => by
    rcases lt_trichotomy a b with h | h | h
    · simp [charListLt, h, lt_asymm h]
    · subst h
      simp [charListLt, lt_irrefl]
      exact charListLt_asymm as bs
    · simp [charListLt, h, lt_asymm h]

theorem pyStrLt_irrefl (a : String) : pyStrLt a a = false :=
  charListLt_irrefl a.data

theorem pyStrLt_asymm (a b : String) (h : pyStrLt a b = true) :
    pyStrLt b a = false :=
  charListLt_asymm a.data b.data h

/-- C10: cmp_rcsdates returns the lexicographic minimum of the two dates
after prefixing 19 to any 17-character (two-digit-year) date; the value
returned is this normalised form, so when the minimum is a pre-2000
date the result is the 19-prefixed string and equals neither original
argument. -/
theorem cmp_rcsdates_min_normalized :
    (∀ d1 d2 : String,
      (cmp_rcsdates d1 d2 = normTwoDigitYear d1 ∨
       cmp_rcsdates d1 d2 = normTwoDigitYear d2) ∧
      pyStrLt (normTwoDigitYear d1) (cmp_rcsdates d1 d2) = false ∧
      pyStrLt (normTwoDigitYear d2) (cmp_rcsdates d1 d2) = false) ∧
    cmp_rcsdates "99.01.01.00.00.00" "2000.01.01.00.00.00" =
      "1999.01.01.00.00.00" ∧
    cmp_rcsdates "99.01.01.00.00.00" "2000.01.01.00.00.00" ≠
      "99.01.01.00.00.00" ∧
    cmp_rcsdates "99.01.01.00.00.00" "2000.01.01.00.00.00" ≠
      "2000.01.01.00.00.00" := by
  refine ⟨fun d1 d2 => ?_, rfl, by decide, by decide⟩
  have ha : normTwoDigitYear d1 = if d1.length = 17 then "19" ++ d1 else d1 := rfl
  have hb : normTwoDigitYear d2 = if d2.length = 17 then "19" ++ d2 else d2 := rfl
  unfold cmp_rcsdates
  rw [← ha, ← hb]
  dsimp only
  cases hlt : pyStrLt (normTwoDigitYear d2) (normTwoDigitYear d1) with
  | true =>
    rw [if_pos rfl]
    exact ⟨Or.inr rfl, pyStrLt_asymm _ _ hlt, pyStrLt_irrefl _⟩
  | false =>
    rw [if_neg (by simp)]
    exact ⟨Or.inl rfl, pyStrLt_irrefl _, hlt⟩

/-- C8: delta(r) and deltatext(r) return the records keyed by r when r
is present.  On a missing revision get_deltatext fails with the
UnknownRevision ValueError as claimed, but get_delta's except branch
interpolates the unbound name delta into its message, so Python raises
NameError there and the claimed UnknownRevision error is never
produced by get_delta. -/
theorem get_delta_unknown_revision_code_bug :
    get_delta twoRevPreservedFile "1.1" = .ok (mkDelta "1.1" "") ∧
    get_deltatext twoRevPreservedFile "1.1" = .ok ⟨"1.1", "l1", ""⟩ ∧
    get_delta twoRevPreservedFile "9.9" = .error (.nameError "delta") ∧
    get_deltatext twoRevPreservedFile "9.9" =
      .error (.valueError "Delta 9.9 does not exist.") ∧
    PyErr.nameError "delta" ≠ PyErr.valueError "Delta 9.9 does not exist." :=
  ⟨rfl, rfl, rfl, rfl, by decide⟩

/-- C6: head() returns the admin head whenever it is set.  The claimed
fallback (numeric maximum 2-component revision) is never computed: the
code iterates the _deltas dict, which yields its string keys, and reads
.deltanum on them, raising AttributeError whenever a delta exists (and
ValueError from max() on an empty model).  On noHeadFile the intended
maximum is 1.10. -/
theorem get_head_fallback_code_bug :
    (∀ f : RCSFile, f.head ≠ "" → get_head f = .ok f.head) ∧
    get_head noHeadFile =
      .error (.attributeError "str object has no attribute deltanum") ∧
    specGetHeadFallback noHeadFile = some "1.10" := by
  refine ⟨fun f h => ?_, rfl, rfl⟩
  simp [get_head, h]

theorem get_head_fallback_code_bug_witness :
    singleHelloFile.head ≠ "" ∧
    get_head singleHelloFile = .ok singleHelloFile.head :=
  ⟨by decide, get_head_fallback_code_bug.1 singleHelloFile (by decide)⟩

/-- C4: in the descent step for a revision curr with a non-empty parent
pointer next, every match labelled curr in the step's output (i.e.
surviving deletions and line-number adjustment) is also emitted under
label next with the same line number and text; with the empty script of
1.1 in spec scenario 2 this makes grep return the 1.2 match together
with an identical 1.1 match. -/
theorem grep_propagates_to_parent
    (P : String → Bool) (wrap : Bool) (f : RCSFile) (first : String × String)
    (curr next : String) (ms out : List GMatch) (m : GMatch)
    (hrun : processDelta P wrap f first (curr, next) ms = .ok out)
    (hnext : next ≠ "") (hne : next ≠ curr) (hm : m ∈ out) (hc : m.1 = curr) :
    (next, m.2.1, m.2.2) ∈ out ∧
    grep twoRevPreservedFile (litMatch "foo") "rlL" false =
      .ok [[.str "1.2", .int 1, .str "foo"],
           [.str "1.1", .int 1, .str "foo"]] := by
  refine ⟨?_, rfl⟩
  unfold processDelta at hrun
  cases hdt : get_deltatext f (curr, next).1 with
  | error e => rw [hdt] at hrun; exact absurd hrun (by simp)
  | ok dt =>
    rw [hdt] at hrun
    dsimp only at hrun
    rw [if_neg hnext] at hrun
    injection hrun with hout
    subst hout
    rcases List.mem_append.mp hm with h1 | h1
    · refine List.mem_append.mpr (Or.inr ?_)
      exact List.mem_map.mpr ⟨m, List.mem_filter.mpr ⟨h1, by simp [hc]⟩, rfl⟩
    · exfalso
      rcases List.mem_map.mp h1 with ⟨x, _, hx⟩
      have hmn : m.1 = next := by rw [← hx]
      exact hne (by rw [← hmn, hc])

theorem grep_propagates_to_parent_witness :
    processDelta (litMatch "foo") false twoRevPreservedFile ("1.2", "1.1")
      ("1.2", "1.1") [] = .ok [("1.2", 1, "foo"), ("1.1", 1, "foo")] ∧
    ("1.1", (1 : Int), "foo") ∈ [("1.2", (1 : Int), "foo"), ("1.1", (1 : Int), "foo")] :=
  ⟨rfl, (grep_propagates_to_parent (litMatch "foo") false twoRevPreservedFile
    ("1.2", "1.1") "1.2" "1.1" [] [("1.2", 1, "foo"), ("1.1", 1, "foo")]
    ("1.2", 1, "foo") rfl (by decide) (by decide) (by decide) rfl).1⟩

/-- One scan step with isHead false maintains the invariant that no
surviving match labelled curr lies in any recorded deletion range. -/
theorem scanStep_deletion_inv (P : String → Bool) (wrap : Bool) (curr : String)
    (total : Nat) (st : ScanState) (i : Nat) (line : String)
    (hinv : ∀ d ∈ st.dels, ∀ m ∈ st.gmatches, m.1 = curr →
      ¬((d.1 : Int) ≤ m.2.1 ∧ m.2.1 < (d.1 : Int) + (d.2 : Int))) :
    ∀ d ∈ (scanStep P wrap curr false total st i line).dels,
      ∀ m ∈ (scanStep P wrap curr false total st i line).gmatches, m.1 = curr →
      ¬((d.1 : Int) ≤ m.2.1 ∧ m.2.1 < (d.1 : Int) + (d.2 : Int)) := by
  unfold scanStep
  simp only [Bool.false_and, Bool.false_eq_true, if_false]
  cases hpd : parseCmd 'd' line with
  | some mn =>
    obtain ⟨a, b⟩ := mn
    dsimp only
    intro d hd m hm hc
    rcases List.mem_append.mp hd with h1 | h1
    · exact hinv d h1 m (List.mem_filter.mp hm).1 hc
    · have hd2 : d = (a, b) := by simpa using h1
      subst hd2
      have hkeep := (List.mem_filter.mp hm).2
      intro hab
      simp [hc, hab.1, hab.2] at hkeep
  | none =>
    cases hpa : parseCmd 'a' line with
    | some mn =>
      obtain ⟨a, b⟩ := mn
      exact hinv
    | none =>
      cases hmode : st.mode with
      | noCmd => exact hinv
      | ins a b k =>
        dsimp only
        by_cases hk : k ≤ b
        · rw [if_pos hk]
          by_cases hemit : (P line || st.takenext) = true
          · rw [if_pos hemit]; exact hinv
          · rw [if_neg hemit]; exact hinv
        · rw [if_neg hk]; exact hinv

theorem scanLines_deletion_inv (P : String → Bool) (wrap : Bool) (curr : String)
    (total : Nat) : ∀ (pl : List (Nat × String)) (st : ScanState),
    (∀ d ∈ st.dels, ∀ m ∈ st.gmatches, m.1 = curr →
      ¬((d.1 : Int) ≤ m.2.1 ∧ m.2.1 < (d.1 : Int) + (d.2 : Int))) →
    ∀ d ∈ (scanLines P wrap curr false total st pl).dels,
      ∀ m ∈ (scanLines P wrap curr false total st pl).gmatches, m.1 = curr →
      ¬((d.1 : Int) ≤ m.2.1 ∧ m.2.1 < (d.1 : Int) + (d.2 : Int))
  | [], _, hinv => hinv
  | (i, l) :: rest, st, hinv =>
    scanLines_deletion_inv P wrap curr total rest _
      (scanStep_deletion_inv P wrap curr total st i l hinv)

/-- C2: while grep descends from curr to its parent, every match
labelled curr whose line number lies in the range of a deletion command
of curr's script is discarded by the scan (no recorded deletion range
contains a surviving curr-labelled match), and in spec scenario 3 the
deleted line b is reported only for 1.2, never under 1.1. -/
theorem grep_deletions_discard_matches
    (P : String → Bool) (wrap : Bool) (curr : String) (lines : List String)
    (ms : List GMatch) (d : Nat × Nat) (m : GMatch)
    (hd : d ∈ (scanDelta P wrap curr false lines ms).dels)
    (hm : m ∈ (scanDelta P wrap curr false lines ms).gmatches)
    (hc : m.1 = curr) :
    ¬((d.1 : Int) ≤ m.2.1 ∧ m.2.1 < (d.1 : Int) + (d.2 : Int)) ∧
    grep deletionFile (litMatch "b") "rlL" false =
      .ok [[.str "1.2", .int 2, .str "b"]] := by
  refine ⟨?_, rfl⟩
  exact scanLines_deletion_inv P wrap curr lines.length (withIndex 1 lines)
    { gmatches := ms, dels := [], inss := [], insertlines := [],
      mode := .noCmd, takenext := false }
    (by intro d2 hd2; exact absurd hd2 (List.not_mem_nil d2)) d hd m hm hc

theorem grep_deletions_discard_matches_witness :
    (2, 1) ∈ (scanDelta (litMatch "b") false "1.1" false ["d2 1", ""]
      [("1.1", 5, "x")]).dels ∧
    ("1.1", (5 : Int), "x") ∈ (scanDelta (litMatch "b") false "1.1" false
      ["d2 1", ""] [("1.1", 5, "x")]).gmatches ∧
    ¬(((2 : Nat) : Int) ≤ (5 : Int) ∧
      (5 : Int) < ((2 : Nat) : Int) + ((1 : Nat) : Int)) :=
  ⟨by decide, by decide,
    (grep_deletions_discard_matches (litMatch "b") false "1.1" ["d2 1", ""]
      [("1.1", 5, "x")] (2, 1) ("1.1", 5, "x") (by decide) (by decide) rfl).1⟩

theorem advanceDel_self (M : Nat) : ∀ ds : List (Nat × Nat),
    (advanceDel (M : Int) ds M).1 = (M : Int)
  | [] => by simp [advanceDel]
  | d :: rest => by simp [advanceDel]

theorem advanceDel_hits : ∀ (ds : List (Nat × Nat)) (cur : Int) (M : Nat),
    List.Pairwise (fun a b : Nat × Nat => a.1 ≤ b.1) ds →
    M ∈ ds.map Prod.fst → cur < (M : Int) →
    (advanceDel cur ds M).1 = (M : Int)
  | [], _, M, _, hmem, _ => absurd hmem (by simp)
  | d :: ds, cur, M, hsort, hmem, hcur => by
    rw [advanceDel, if_pos hcur]
    by_cases hdM : d.1 = M
    · rw [hdM]; exact advanceDel_self M ds
    · have hmem2 : M ∈ ds.map Prod.fst := by
        rcases List.mem_map.mp hmem with ⟨p, hp, hfst⟩
        rcases List.mem_cons.mp hp with h | h
        · exact absurd (h ▸ hfst) hdM
        · exact List.mem_map.mpr ⟨p, h, hfst⟩
      have hlt : d.1 < M := by
        rcases List.mem_map.mp hmem2 with ⟨p, hp, hfst⟩
        have := (List.pairwise_cons.mp hsort).1 p hp
        omega
      exact advanceDel_hits ds (d.1 : Int) M (List.pairwise_cons.mp hsort).2
        hmem2 (by exact_mod_cast hlt)

theorem overlapGo_hits : ∀ (inss dels : List (Nat × Nat)) (M : Nat),
    List.Pairwise (fun a b : Nat × Nat => a.1 ≤ b.1) dels →
    M ∈ dels.map Prod.fst → M ∈ inss.map Prod.fst →
    overlapGo M inss (-1) dels = 1
  | [], _, M, _, _, hins => absurd hins (by simp)
  | i :: inss, dels, M, hsort, hdels, hins => by
    rw [overlapGo]
    by_cases hiM : i.1 = M
    · rw [if_pos hiM]
      have h1 : (advanceDel (-1) dels i.1).1 = (i.1 : Int) := by
        rw [hiM]
        exact advanceDel_hits dels (-1) M hsort hdels (by omega)
      dsimp only
      rw [if_pos h1]
    · rw [if_neg hiM]
      have hins2 : M ∈ inss.map Prod.fst := by
        rcases List.mem_map.mp hins with ⟨p, hp, hfst⟩
        rcases List.mem_cons.mp hp with h | h
        · exact absurd (h ▸ hfst) hiM
        · exact List.mem_map.mpr ⟨p, h, hfst⟩
      exact overlapGo_hits inss dels M hsort hdels hins2

/-- C3: when a deletion d M N and an insertion a M Q share the anchor M
in a delta-text script (with the deletion list sorted as the engine
sorts it), a matching line at offset k inside that insertion block is
assigned line number M + k + earlier insertions - earlier deletions - 1,
one less than the normal adjustment; concretely the script d3 2
followed by a3 1 with payload X places X at line 3 of revision 1.1, not
line 4. -/
theorem grep_overlap_decrements
    (dels inss : List (Nat × Nat)) (M N Q k : Nat) (curr line : String)
    (hsort : List.Pairwise (fun a b : Nat × Nat => a.1 ≤ b.1) dels)
    (hdel : (M, N) ∈ dels) (hins : (M, Q) ∈ inss) :
    adjustInsert dels inss (curr, M, k, line) =
      (curr, (M : Int) + (k : Int) + sumBelow inss (M : Int) -
        sumBelow dels (M : Int) - 1, line) ∧
    grep overlapFile (litMatch "X") "rlL" false =
      .ok [[.str "1.1", .int 3, .str "X"]] := by
  refine ⟨?_, rfl⟩
  have hov : matchOverlap inss dels M = 1 :=
    overlapGo_hits inss dels M hsort
      (List.mem_map.mpr ⟨(M, N), hdel, rfl⟩)
      (List.mem_map.mpr ⟨(M, Q), hins, rfl⟩)
  unfold adjustInsert
  dsimp only
  rw [hov]
  norm_num

theorem grep_overlap_decrements_witness :
    List.Pairwise (fun a b : Nat × Nat => a.1 ≤ b.1) [(3, 2)] ∧
    ((3 : Nat), (2 : Nat)) ∈ [((3 : Nat), (2 : Nat))] ∧
    ((3 : Nat), (1 : Nat)) ∈ [((3 : Nat), (1 : Nat))] ∧
    adjustInsert [(3, 2)] [(3, 1)] ("1.1", 3, 1, "X") =
      ("1.1", (3 : Int) + (1 : Int) + sumBelow [(3, 1)] (3 : Int) -
        sumBelow [(3, 2)] (3 : Int) - 1, "X") :=
  ⟨by simp, by decide, by decide,
    (grep_overlap_decrements [(3, 2)] [(3, 1)] 3 2 1 1 "1.1" "X"
      (by simp) (by decide) (by decide)).1⟩

theorem findPop_fst : ∀ (l : List (String × String)) (key : String)
    (p : String × String) (rest : List (String × String)),
    findPop key l = some (p, rest) → p.1 = key := by
  intro l key
  induction l with
  | nil => intro p rest h; simp [findPop] at h
  | cons q l ih =>
    intro p rest h
    rw [findPop] at h
    by_cases hq : q.1 = key
    · rw [if_pos hq] at h
      injection h with h1
      simp only [Prod.mk.injEq] at h1
      rw [← h1.1]
      exact hq
    · rw [if_neg hq] at h
      cases hrec : findPop key l with
      | none => rw [hrec] at h; simp at h
      | some pr =>
        obtain ⟨q2, r2⟩ := pr
        rw [hrec] at h
        dsimp only at h
        injection h with h1
        simp only [Prod.mk.injEq] at h1
        rw [← h1.1]
        exact ih q2 r2 hrec

theorem findPop_of_mem : ∀ (l : List (String × String)) (key : String),
    key ∈ l.map Prod.fst →
    ∃ rest nxt, findPop key l = some ((key, nxt), rest) := by
  intro l key
  induction l with
  | nil => simp
  | cons q l ih =>
    intro hmem
    rw [findPop]
    by_cases hq : q.1 = key
    · rw [if_pos hq]
      refine ⟨l, q.2, ?_⟩
      rw [← hq]
    · rw [if_neg hq]
      have hmem2 : key ∈ l.map Prod.fst := by
        rcases List.mem_map.mp hmem with ⟨p, hp, hfst⟩
        rcases List.mem_cons.mp hp with h | h
        · exact absurd (h ▸ hfst) hq
        · exact List.mem_map.mpr ⟨p, h, hfst⟩
      obtain ⟨rest, nxt, hrec⟩ := ih hmem2
      rw [hrec]
      exact ⟨q :: rest, nxt, rfl⟩

theorem ancLoop_chain : ∀ (fuel : Nat) (last : String × String)
    (rem : List (String × String)),
    List.Chain' (fun a b : String × String => b.1 = a.2)
      (last :: (ancLoop fuel last rem).1)
  | 0, last, rem => by simp [ancLoop]
  | fuel + 1, last, rem => by
    rw [ancLoop]
    by_cases h : last.2 = ""
    · rw [if_pos h]; simp
    · rw [if_neg h]
      cases hfp : findPop last.2 rem with
      | none => simp
      | some pr =>
        obtain ⟨q, rem2⟩ := pr
        dsimp only
        refine List.chain'_cons.mpr ⟨?_, ?_⟩
        · exact findPop_fst rem last.2 q rem2 hfp
        · exact ancLoop_chain fuel q rem2

theorem findPop_perm : ∀ (l : List (String × String)) (key : String)
    (p : String × String) (rest : List (String × String)),
    findPop key l = some (p, rest) → l.Perm (p :: rest) := by
  intro l key
  induction l with
  | nil => intro p rest h; simp [findPop] at h
  | cons q l ih =>
    intro p rest h
    rw [findPop] at h
    by_cases hq : q.1 = key
    · rw [if_pos hq] at h
      injection h with h1
      simp only [Prod.mk.injEq] at h1
      rw [← h1.1, ← h1.2]
    · rw [if_neg hq] at h
      cases hrec : findPop key l with
      | none => rw [hrec] at h; simp at h
      | some pr =>
        obtain ⟨p2, rest2⟩ := pr
        rw [hrec] at h
        dsimp only at h
        injection h with h1
        simp only [Prod.mk.injEq] at h1
        rw [← h1.1, ← h1.2]
        exact ((ih p2 rest2 hrec).cons q).trans (List.Perm.swap p2 q rest2)

theorem findPop_none_not_mem (l : List (String × String)) (key : String)
    (h : findPop key l = none) : key ∉ l.map Prod.fst := by
  intro hmem
  obtain ⟨rest, nxt, hfp⟩ := findPop_of_mem l key hmem
  rw [hfp] at h
  exact absurd h (by simp)

/-- Full behaviour of the ancestor-gathering while loop: the elements it
pops together with the untouched remainder rem2 permute the search
pool, the loop stops with the warning flag clear exactly when the last
gathered element's next is empty, and with the flag set exactly when
that next is nonempty but absent from the remainder - i.e. the prefix
gathered up to the break is returned. -/
theorem ancLoop_spec : ∀ (fuel : Nat) (last : String × String)
    (rem : List (String × String)), rem.length < fuel →
    ∃ q rem2,
      (last :: (ancLoop fuel last rem).1).getLast? = some q ∧
      rem.Perm ((ancLoop fuel last rem).1 ++ rem2) ∧
      ((ancLoop fuel last rem).2 = false → q.2 = "") ∧
      ((ancLoop fuel last rem).2 = true →
        q.2 ≠ "" ∧ q.2 ∉ rem2.map Prod.fst)
  | 0, _, rem, hlt => absurd hlt (by omega)
  | fuel + 1, last, rem, hlt => by
    rw [ancLoop]
    by_cases h : last.2 = ""
    · rw [if_pos h]
      refine ⟨last, rem, by simp, ?_, fun _ => h, by simp⟩
      rw [List.nil_append]
    · rw [if_neg h]
      cases hfp : findPop last.2 rem with
      | none =>
        dsimp only
        refine ⟨last, rem, by simp, ?_, by simp, ?_⟩
        · rw [List.nil_append]
        · exact fun _ => ⟨h, findPop_none_not_mem rem last.2 hfp⟩
      | some pr =>
        obtain ⟨p, rest⟩ := pr
        dsimp only
        have hlen : rest.length < fuel := by
          have hpl := (findPop_perm rem last.2 p rest hfp).length_eq
          simp only [List.length_cons] at hpl
          omega
        obtain ⟨q, rem2, hq, hperm, hw0, hw1⟩ :=
          ancLoop_spec fuel p rest hlen
        refine ⟨q, rem2, ?_, ?_, hw0, hw1⟩
        · rw [List.getLast?_cons_cons]
          exact hq
        · exact (findPop_perm rem last.2 p rest hfp).trans (hperm.cons p)

/-- C7: for every revision r present among the deltas, ancestors(r)
returns, rather than failing, a list l of (deltanum, next) pairs and a
warning flag w: the first element has deltanum r and each subsequent
element is the delta named by the previous element's next; l together
with the untouched remainder rem2 permutes all (deltanum, next) tuples;
when w is false the last gathered element's next is empty (the chain
ended normally), and when w is true (the missing-delta warning) the
last element's next is nonempty yet names no revision among the
remaining tuples, so l is exactly the prefix gathered when the chain
broke.  Concretely, on a model whose head 1.2 names a missing parent
1.1, ancestors(1.2) returns the prefix [(1.2, 1.1)] with the warning
flag set instead of failing. -/
theorem ancestors_chain (f : RCSFile) (r : String)
    (hr : r ∈ (get_next_tuples f).map Prod.fst) :
    (∃ l w rem2 q, get_ancestor_tuples f r = .ok (l, w) ∧
      (∃ nxt rest2, l = (r, nxt) :: rest2) ∧
      List.Chain' (fun a b : String × String => b.1 = a.2) l ∧
      (get_next_tuples f).Perm (l ++ rem2) ∧
      l.getLast? = some q ∧
      (w = false → q.2 = "") ∧
      (w = true → q.2 ≠ "" ∧ q.2 ∉ rem2.map Prod.fst)) ∧
    get_ancestor_tuples brokenChainFile "1.2" =
      .ok ([("1.2", "1.1")], true) := by
  refine ⟨?_, rfl⟩
  obtain ⟨rest, nxt, hfp⟩ := findPop_of_mem (get_next_tuples f) r hr
  obtain ⟨q, rem2, hq, hperm, hw0, hw1⟩ :=
    ancLoop_spec (rest.length + 1) (r, nxt) rest (by omega)
  refine ⟨(r, nxt) :: (ancLoop (rest.length + 1) (r, nxt) rest).1,
    (ancLoop (rest.length + 1) (r, nxt) rest).2, rem2, q, ?_,
    ⟨nxt, _, rfl⟩, ancLoop_chain (rest.length + 1) (r, nxt) rest, ?_, hq,
    hw0, hw1⟩
  · unfold get_ancestor_tuples
    rw [hfp]
  · exact (findPop_perm (get_next_tuples f) r (r, nxt) rest hfp).trans
      (hperm.cons (r, nxt))

theorem ancestors_chain_witness :
    "1.2" ∈ (get_next_tuples deletionFile).map Prod.fst ∧
    ((∃ l w rem2 q, get_ancestor_tuples deletionFile "1.2" = .ok (l, w) ∧
      (∃ nxt rest2, l = ("1.2", nxt) :: rest2) ∧
      List.Chain' (fun a b : String × String => b.1 = a.2) l ∧
      (get_next_tuples deletionFile).Perm (l ++ rem2) ∧
      l.getLast? = some q ∧
      (w = false → q.2 = "") ∧
      (w = true → q.2 ≠ "" ∧ q.2 ∉ rem2.map Prod.fst)) ∧
     get_ancestor_tuples brokenChainFile "1.2" =
       .ok ([("1.2", "1.1")], true)) :=
  ⟨by decide, ancestors_chain deletionFile "1.2" (by decide)⟩

/-- C9 counterexample: a format string with the unrecognised directive q
does not fail when the match list is empty, because the format loop
runs once per match; grep returns the empty list instead of the
claimed BadFormat error. -/
theorem grep_badformat_counterexample :
    grep singleHelloFile (litMatch "zzz") "q" false = .ok [] := rfl

theorem formatAttr_valid_ok (f : RCSFile) (m : GMatch) (c : Char)
    (d : Delta) (hd : lookupDelta f m.1 = some d)
    (t : DeltaText) (ht : lookupDeltatext f m.1 = some t)
    (hc : isValidAttr c = true) : ∃ fld, formatAttr f m c = .ok fld := by
  have ha : get_author f m.1 = .ok d.author := by unfold get_author; rw [hd]
  have hdate : get_date f m.1 = .ok d.date := by unfold get_date; rw [hd]
  have hm : get_message f m.1 = .ok t.log := by unfold get_message; rw [ht]
  simp only [isValidAttr, Bool.or_eq_true, beq_iff_eq] at hc
  rcases hc with ((((((((hc | hc) | hc) | hc) | hc) | hc) | hc) | hc) | hc) <;>
    subst hc <;>
    simp [formatAttr, ha, hdate, hm]

theorem formatOne_bad (f : RCSFile) (m : GMatch) (d : Delta) (t : DeltaText)
    (hd : lookupDelta f m.1 = some d) (ht : lookupDeltatext f m.1 = some t) :
    ∀ cs : List Char, cs.all isValidAttr = false →
    ∃ c, isValidAttr c = false ∧ c ∈ cs ∧
      formatOne f m cs = .error (.valueError
        ("Unknown formatting option " ++ (⟨[c]⟩ : String) ++ "."))
  | [] => by simp
  | c :: cs => by
    intro hbad
    by_cases hc : isValidAttr c = true
    · have hcs : cs.all isValidAttr = false := by
        rw [List.all_cons, hc, Bool.true_and] at hbad
        exact hbad
      obtain ⟨c2, hc2, hmem, herr⟩ := formatOne_bad f m d t hd ht cs hcs
      obtain ⟨fld, hfld⟩ := formatAttr_valid_ok f m c d hd t ht hc
      refine ⟨c2, hc2, List.mem_cons_of_mem c hmem, ?_⟩
      rw [formatOne, hfld, herr]
    · have hc2 : isValidAttr c = false := by simpa using hc
      refine ⟨c, hc2, List.mem_cons_self c cs, ?_⟩
      have hne := hc2
      simp only [isValidAttr, Bool.or_eq_false_iff, beq_eq_false_iff_ne,
        ne_eq] at hne
      have herr : formatAttr f m c = .error (.valueError
          ("Unknown formatting option " ++ (⟨[c]⟩ : String) ++ ".")) := by
        unfold formatAttr
        rw [if_neg hne.1.1.1.1.1.1.1.1, if_neg hne.1.1.1.1.1.1.1.2,
          if_neg hne.1.1.1.1.1.1.2, if_neg hne.1.1.1.1.1.2,
          if_neg hne.1.1.1.1.2, if_neg hne.1.1.1.2, if_neg hne.1.1.2,
          if_neg hne.1.2, if_neg hne.2]
      rw [formatOne, herr]

/-- C9 amended: grep fails with the BadFormat ValueError on a format
string containing an unrecognised directive only when the match list is
non-empty (the per-match format loop is what raises); with no matches
the unknown directive is never examined and the empty list is returned
(see the counterexample).  When the format argument is omitted the
default rlL returns the raw (revision, line number, line text)
tuples. -/
theorem grep_badformat_amended
    (f : RCSFile) (m : GMatch) (ms : List GMatch) (fmt : String)
    (d : Delta) (t : DeltaText)
    (hd : lookupDelta f m.1 = some d) (ht : lookupDeltatext f m.1 = some t)
    (hbad : fmt.data.all isValidAttr = false) :
    (∃ c, isValidAttr c = false ∧ c ∈ fmt.data ∧
      formatAll f fmt (m :: ms) = .error (.valueError
        ("Unknown formatting option " ++ (⟨[c]⟩ : String) ++ "."))) ∧
    (∀ (f2 : RCSFile) (ms2 : List GMatch), formatAll f2 "rlL" ms2 =
      .ok (ms2.map (fun x => [.str x.1, .int x.2.1, .str x.2.2]))) ∧
    grep singleHelloFile (litMatch "hello") "q" false =
      .error (.valueError "Unknown formatting option q.") := by
  refine ⟨?_, fun f2 ms2 => rfl, rfl⟩
  obtain ⟨c, hc, hmem, herr⟩ := formatOne_bad f m d t hd ht fmt.data hbad
  refine ⟨c, hc, hmem, ?_⟩
  unfold formatAll
  rw [if_neg ?hne]
  case hne =>
    intro hrl
    rw [hrl] at hbad
    exact absurd hbad (by decide)
  rw [formatLoop, herr]

theorem grep_badformat_amended_witness :
    lookupDelta singleHelloFile "1.1" = some ⟨"1.1", "2011.01.01.00.00.00",
      "rak", "Exp", [], ""⟩ ∧
    lookupDeltatext singleHelloFile "1.1" = some ⟨"1.1", "log",
      "hello\nworld\n"⟩ ∧
    "q".data.all isValidAttr = false ∧
    (∃ c, isValidAttr c = false ∧ c ∈ "q".data ∧
      formatAll singleHelloFile "q" [("1.1", 1, "hello")] =
        .error (.valueError
          ("Unknown formatting option " ++ (⟨[c]⟩ : String) ++ "."))) :=
  ⟨rfl, rfl, by decide,
    (grep_badformat_amended singleHelloFile ("1.1", 1, "hello") [] "q"
      ⟨"1.1", "2011.01.01.00.00.00", "rak", "Exp", [], ""⟩
      ⟨"1.1", "log", "hello\nworld\n"⟩ rfl rfl (by decide)).1⟩

/-! ## The head-branch scan agrees with the reference recursion hdScan -/

theorem withIndex_append : ∀ (as bs : List String) (i : Nat),
    withIndex i (as ++ bs) = withIndex i as ++ withIndex (i + as.length) bs
  | [], bs, i => by simp [withIndex]
  | a :: as, bs, i => by
    rw [List.cons_append, withIndex, withIndex, withIndex_append as bs (i + 1)]
    have h : i + 1 + as.length = i + (a :: as).length := by
      simp [List.length_cons]; omega
    rw [h]
    simp

theorem scanLines_append (P : String → Bool) (wrap : Bool) (curr : String)
    (isHead : Bool) (total : Nat) :
    ∀ (xs ys : List (Nat × String)) (st : ScanState),
    scanLines P wrap curr isHead total st (xs ++ ys) =
      scanLines P wrap curr isHead total
        (scanLines P wrap curr isHead total st xs) ys
  | [], _, _ => rfl
  | (i, l) :: xs, ys, st => by
    rw [List.cons_append, scanLines, scanLines,
      scanLines_append P wrap curr isHead total xs ys]

theorem scanStep_head_emit (P : String → Bool) (wrap : Bool) (curr : String)
    (total : Nat) (st : ScanState) (i : Nat) (l : String)
    (hne : (i == total) = false) (hemit : (P l || st.takenext) = true) :
    scanStep P wrap curr true total st i l =
      { st with gmatches := st.gmatches ++ [(curr, (i : Int), l)],
                takenext := wrap && endsBackslash l } := by
  unfold scanStep
  rw [hne, hemit]
  simp

theorem scanStep_head_skip (P : String → Bool) (wrap : Bool) (curr : String)
    (total : Nat) (st : ScanState) (i : Nat) (l : String)
    (hne : (i == total) = false) (hemit : (P l || st.takenext) = false) :
    scanStep P wrap curr true total st i l = st := by
  unfold scanStep
  rw [hne, hemit]
  simp

theorem scanStep_head_last (P : String → Bool) (wrap : Bool) (curr : String)
    (total : Nat) (st : ScanState) (hmode : st.mode = Mode.noCmd) :
    scanStep P wrap curr true total st total "" = st := by
  unfold scanStep
  have h1 : parseCmd 'd' "" = none := rfl
  have h2 : parseCmd 'a' "" = none := rfl
  simp [h1, h2, hmode]

theorem scanLines_head (P : String → Bool) (wrap : Bool) (curr : String)
    (total : Nat) : ∀ (ls : List String) (i : Nat) (st : ScanState),
    i + ls.length ≤ total →
    scanLines P wrap curr true total st (withIndex i ls) =
      { st with
        gmatches := st.gmatches ++ (hdScan curr P wrap i st.takenext ls).1,
        takenext := (hdScan curr P wrap i st.takenext ls).2 } := by
  intro ls
  induction ls with
  | nil => intro i st _; simp [withIndex, scanLines, hdScan]
  | cons l ls ih =>
    intro i st hle
    have hne : (i == total) = false := by
      have h : i ≠ total := by simp [List.length_cons] at hle; omega
      simpa using h
    rw [withIndex, scanLines]
    cases hemit : (P l || st.takenext) with
    | true =>
      rw [scanStep_head_emit P wrap curr total st i l hne hemit]
      rw [ih (i + 1) _ (by simp [List.length_cons] at hle ⊢; omega)]
      rw [hdScan, hemit]
      dsimp only
      simp [List.append_assoc]
    | false =>
      rw [scanStep_head_skip P wrap curr total st i l hne hemit]
      rw [ih (i + 1) st (by simp [List.length_cons] at hle ⊢; omega)]
      rw [hdScan, hemit]
      simp

theorem hdScan_wrap_false (curr : String) (P : String → Bool) :
    ∀ (ls : List String) (i : Nat),
    hdScan curr P false i false ls =
      (((withIndex i ls).filter (fun p => P p.2)).map
        (fun p => (curr, (p.1 : Int), p.2)), false)
  | [], i => by simp [hdScan, withIndex]
  | l :: ls, i => by
    rw [hdScan, withIndex]
    cases hP : P l with
    | true =>
      simp only [hP, Bool.true_or, Bool.false_and, if_true]
      rw [hdScan_wrap_false curr P ls (i + 1)]
      simp [List.filter_cons, hP]
    | false =>
      simp only [hP, Bool.or_false]
      rw [if_neg (by simp)]
      rw [hdScan_wrap_false curr P ls (i + 1)]
      simp [List.filter_cons, hP]

theorem splitSepAux_no_sep (sep : Char) : ∀ (xs cs acc : List Char),
    (∀ c ∈ xs, c ≠ sep) →
    splitSepAux sep (xs ++ cs) acc = splitSepAux sep cs (xs.reverse ++ acc)
  | [], cs, acc, _ => by simp
  | x :: xs, cs, acc, h => by
    rw [List.cons_append, splitSepAux,
      if_neg (h x (List.mem_cons_self x xs)),
      splitSepAux_no_sep sep xs cs (x :: acc)
        (fun c hc => h c (List.mem_cons_of_mem x hc))]
    simp

theorem pySplit_unlines : ∀ ls : List String,
    (∀ l ∈ ls, ∀ c ∈ l.data, c ≠ '\n') →
    pySplit (unlines ls) = ls ++ [""]
  | [], _ => rfl
  | l :: ls, h => by
    have hdata : (unlines (l :: ls)).data =
        l.data ++ '\n' :: (unlines ls).data := by
      show ((l ++ "\n") ++ unlines ls).data = _
      rw [String.data_append, String.data_append]
      simp
    unfold pySplit pySplitOn
    rw [hdata, splitSepAux_no_sep '\n' l.data ('\n' :: (unlines ls).data) []
      (h l (List.mem_cons_self l ls))]
    rw [splitSepAux, if_pos rfl]
    have htail := pySplit_unlines ls
      (fun l2 hl2 => h l2 (List.mem_cons_of_mem l hl2))
    unfold pySplit pySplitOn at htail
    rw [List.map_cons, htail]
    simp
    rfl

theorem adjustMatches_nil (curr : String) (ms : List GMatch) :
    adjustMatches curr [] [] ms = ms := by
  unfold adjustMatches
  have h : ∀ m : GMatch,
      (if m.1 = curr then
        (m.1, m.2.1 + sumBelow [] m.2.1 - sumBelow [] m.2.1, m.2.2)
      else m) = m := by
    intro m
    by_cases hc : m.1 = curr
    · rw [if_pos hc]
      have h2 : m.2.1 + sumBelow [] m.2.1 - sumBelow [] m.2.1 = m.2.1 := by
        simp [sumBelow]
      rw [h2]
    · rw [if_neg hc]
  simp only [h, List.map_id']

theorem takeWhile_all (p : α → Bool) : ∀ l : List α,
    (∀ x ∈ l, p x = true) → l.takeWhile p = l
  | [], _ => rfl
  | x :: xs, h => by
    rw [List.takeWhile_cons, h x (List.mem_cons_self x xs), if_pos rfl,
      takeWhile_all p xs (fun y hy => h y (List.mem_cons_of_mem x hy))]

theorem pySort_eq_self (lt : α → α → Bool) : ∀ l : List α,
    List.Pairwise (fun a b => lt b a = false) l → pySort lt l = l
  | [], _ => rfl
  | x :: xs, h => by
    show insertSorted lt x (pySort lt xs) = x :: xs
    rw [pySort_eq_self lt xs (List.pairwise_cons.mp h).2]
    cases xs with
    | nil => rfl
    | cons y ys =>
      rw [insertSorted,
        (List.pairwise_cons.mp h).1 y (List.mem_cons_self y ys)]
      simp

theorem withIndex_fst_ge : ∀ (ls : List String) (j : Nat) (p : Nat × String),
    p ∈ withIndex j ls → j ≤ p.1
  | [], _, _, h => absurd h (List.not_mem_nil _)
  | l :: ls, j, p, h => by
    rw [withIndex] at h
    rcases List.mem_cons.mp h with h1 | h1
    · rw [h1]
    · have := withIndex_fst_ge ls (j + 1) p h1
      omega

theorem withIndex_fst_lt : ∀ (ls : List String) (i : Nat),
    List.Pairwise (fun a b : Nat × String => a.1 < b.1) (withIndex i ls)
  | [], _ => List.Pairwise.nil
  | l :: ls, i => by
    rw [withIndex]
    refine List.pairwise_cons.mpr ⟨?_, withIndex_fst_lt ls (i + 1)⟩
    intro p hp
    have := withIndex_fst_ge ls (i + 1) p hp
    omega

theorem matchLt_false_of_fst_lt (rev : String) (a b : Nat × String)
    (hab : a.1 < b.1) :
    matchLt (rev, ((b.1 : Nat) : Int), b.2) (rev, ((a.1 : Nat) : Int), a.2) =
      false := by
  unfold matchLt
  have h1 : pyStrLt rev rev = false := pyStrLt_irrefl rev
  have h2 : ¬(((b.1 : Nat) : Int) < ((a.1 : Nat) : Int)) := by
    exact_mod_cast not_lt.mpr (le_of_lt hab)
  have h3 : (((b.1 : Nat) : Int) == ((a.1 : Nat) : Int)) = false := by
    have : ((b.1 : Nat) : Int) ≠ ((a.1 : Nat) : Int) := by
      exact_mod_cast (ne_of_gt hab)
    simpa using this
  simp [h1, h2, h3]

theorem emits_pairwise (rev : String) (P : String → Bool) (ls : List String)
    (i : Nat) :
    List.Pairwise (fun a b : GMatch => matchLt b a = false)
      (((withIndex i ls).filter (fun p => P p.2)).map
        (fun p => (rev, (p.1 : Int), p.2))) := by
  refine List.pairwise_map.mpr ?_
  refine List.Pairwise.filter _ ?_
  refine (withIndex_fst_lt ls i).imp ?_
  intro a b hab
  exact matchLt_false_of_fst_lt rev a b hab

theorem sortSuffix_all_curr (curr : String) (ms : List GMatch)
    (hall : ∀ m ∈ ms, m.1 = curr)
    (hsorted : List.Pairwise (fun a b => matchLt b a = false) ms) :
    sortSuffix curr ms = ms := by
  unfold sortSuffix
  have htw : ms.reverse.takeWhile (fun m => m.1 == curr) = ms.reverse := by
    refine takeWhile_all _ ms.reverse ?_
    intro x hx
    have := hall x (List.mem_reverse.mp hx)
    simpa using this
  rw [htw, List.length_reverse]
  by_cases hlen : ms.length = 0
  · rw [if_pos hlen]
  · rw [if_neg hlen, Nat.sub_self, List.take_zero, List.drop_zero,
      List.nil_append, pySort_eq_self matchLt ms hsorted]

/-- Evaluation of the per-delta body of grep on the single delta of a
single-revision model. -/
theorem processDelta_single (P : String → Bool)
    (rev date author log : String) (ls : List String)
    (hnl : ∀ l ∈ ls, ∀ c ∈ l.data, c ≠ '\n') :
    processDelta P false (mkSingleFile rev date author log ls)
      (rev, "") (rev, "") [] =
      .ok (((withIndex 1 ls).filter (fun p => P p.2)).map
        (fun p => (rev, (p.1 : Int), p.2))) := by
  unfold processDelta
  have hdt : get_deltatext (mkSingleFile rev date author log ls) rev =
      .ok ⟨rev, log, unlines ls⟩ := by
    simp [get_deltatext, lookupDeltatext, mkSingleFile]
  rw [hdt]
  dsimp only
  have hsplit : pySplit (DeltaText.text ⟨rev, log, unlines ls⟩) = ls ++ [""] :=
    pySplit_unlines ls hnl
  rw [hsplit]
  have hfirst : decide ((rev, "") = (rev, "")) = true := by simp
  rw [hfirst]
  have hscan : scanDelta P false rev true (ls ++ [""]) [] =
      { gmatches := ((withIndex 1 ls).filter (fun p => P p.2)).map
          (fun p => (rev, (p.1 : Int), p.2)),
        dels := [], inss := [], insertlines := [],
        mode := .noCmd, takenext := false } := by
    unfold scanDelta
    rw [withIndex_append, scanLines_append]
    rw [scanLines_head P false rev (ls ++ [""]).length ls 1 _
      (by simp only [List.length_append, List.length_cons, List.length_nil]
          omega)]
    dsimp only
    rw [hdScan_wrap_false rev P ls 1]
    dsimp only
    rw [withIndex]
    rw [show 1 + ls.length = (ls ++ [""]).length from by
      simp [List.length_append]; omega]
    rw [withIndex, scanLines, scanLines]
    rw [scanStep_head_last P false rev (ls ++ [""]).length _ rfl]
    simp
  rw [hscan]
  dsimp only
  have hsorted : pySort pairLt ([] : List (Nat × Nat)) = [] := rfl
  rw [hsorted]
  rw [adjustMatches_nil]
  rw [List.map_nil, List.append_nil]
  rw [sortSuffix_all_curr rev _ ?hall (emits_pairwise rev P ls 1)]
  case hall =>
    intro m hm
    rcases List.mem_map.mp hm with ⟨p, _, hp⟩
    rw [← hp]
  rw [if_pos rfl]

/-- C1: for every model built from a single-revision RCS file (head
only, whose delta text is the literal file content with every line
terminated) and every pattern P, grep with the default format returns
exactly the tuples (head, i, line) for each 1-based line index i whose
line matches P at column 0, the final empty fragment after the trailing
line terminator being discarded; concretely, head 1.1 containing hello,
world gives grep "hello" = [(1.1, 1, hello)]. -/
theorem grep_single_revision (P : String → Bool)
    (rev date author log : String) (ls : List String) (hrev : rev ≠ "")
    (hnl : ∀ l ∈ ls, ∀ c ∈ l.data, c ≠ '\n') :
    grep (mkSingleFile rev date author log ls) P "rlL" false =
      .ok (((withIndex 1 ls).filter (fun p => P p.2)).map
        (fun p => [Field.str rev, Field.int (p.1 : Int), Field.str p.2])) ∧
    grep singleHelloFile (litMatch "hello") "rlL" false =
      .ok [[.str "1.1", .int 1, .str "hello"]] := by
  refine ⟨?_, rfl⟩
  unfold grep
  have hh : get_head (mkSingleFile rev date author log ls) = .ok rev := by
    simp [get_head, mkSingleFile, hrev]
  rw [hh]
  dsimp only
  have hanc : get_ancestor_tuples (mkSingleFile rev date author log ls) rev =
      .ok ([(rev, "")], false) := by
    unfold get_ancestor_tuples get_next_tuples mkSingleFile
    dsimp only
    simp [findPop, ancLoop]
  rw [hanc]
  dsimp only [List.headD]
  rw [grepMatchesLoop, processDelta_single P rev date author log ls hnl]
  dsimp only
  rw [grepMatchesLoop]
  unfold formatAll
  dsimp only
  rw [if_pos rfl, List.map_map]
  rfl

theorem grep_single_revision_witness :
    ("1.1" : String) ≠ "" ∧
    (∀ l ∈ ["hello", "world"], ∀ c ∈ l.data, c ≠ '\n') ∧
    grep (mkSingleFile "1.1" "2011.01.01.00.00.00" "rak" "log"
        ["hello", "world"]) (litMatch "hello") "rlL" false =
      .ok (((withIndex 1 ["hello", "world"]).filter
          (fun p => litMatch "hello" p.2)).map
        (fun p => [Field.str "1.1", Field.int (p.1 : Int), Field.str p.2])) :=
  ⟨by decide, by decide,
    (grep_single_revision (litMatch "hello") "1.1" "2011.01.01.00.00.00"
      "rak" "log" ["hello", "world"] (by decide) (by decide)).1⟩

/-! ## Continuation dragging (wrap_continuations) -/

theorem hdScan_mem (curr : String) (P : String → Bool) (wrap : Bool) :
    ∀ (ls : List String) (i : Nat) (tn : Bool) (x : GMatch),
    x ∈ (hdScan curr P wrap i tn ls).1 →
    ∃ k, k < ls.length ∧ x = (curr, ((i + k : Nat) : Int), ls.getD k "")
  | [], i, tn, x, h => absurd h (by simp [hdScan])
  | l :: ls, i, tn, x, h => by
    rw [hdScan] at h
    cases hemit : (P l || tn) with
    | true =>
      rw [hemit, if_pos rfl] at h
      dsimp only at h
      rcases List.mem_cons.mp h with h1 | h1
      · exact ⟨0, by simp [List.length_cons], by simpa using h1⟩
      · obtain ⟨k, hk, hx⟩ := hdScan_mem curr P wrap ls (i + 1)
          (wrap && endsBackslash l) x h1
        refine ⟨k + 1, by simp [List.length_cons]; omega, ?_⟩
        have harith : i + 1 + k = i + (k + 1) := by omega
        rw [hx, harith, List.getD_cons_succ]
    | false =>
      rw [hemit, if_neg (by simp)] at h
      obtain ⟨k, hk, hx⟩ := hdScan_mem curr P wrap ls (i + 1) tn x h
      refine ⟨k + 1, by simp [List.length_cons]; omega, ?_⟩
      have harith : i + 1 + k = i + (k + 1) := by omega
      rw [hx, harith, List.getD_cons_succ]

theorem hdScan_tn_head (curr : String) (P : String → Bool) (wrap : Bool)
    (l : String) (ls : List String) (i : Nat) :
    (curr, (i : Int), l) ∈ (hdScan curr P wrap i true (l :: ls)).1 := by
  rw [hdScan, Bool.or_true, if_pos rfl]
  dsimp only
  exact List.mem_cons_self _ _

theorem hdScan_drag (curr : String) (P : String → Bool) :
    ∀ (ls : List String) (i : Nat) (tn : Bool) (j : Nat) (l : String),
    (curr, (j : Int), l) ∈ (hdScan curr P true i tn ls).1 →
    endsBackslash l = true → j + 1 - i < ls.length →
    (curr, ((j + 1 : Nat) : Int), ls.getD (j + 1 - i) "") ∈
      (hdScan curr P true i tn ls).1
  | [], _, _, _, _, hmem, _, _ => absurd hmem (by simp [hdScan])
  | l0 :: ls, i, tn, j, l, hmem, hbs, hbound => by
    rw [hdScan] at hmem ⊢
    cases hemit : (P l0 || tn) with
    | true =>
      rw [hemit] at hmem
      rw [if_pos rfl] at hmem ⊢
      dsimp only at hmem ⊢
      rcases List.mem_cons.mp hmem with h1 | h1
      · simp only [Prod.mk.injEq] at h1
        obtain ⟨-, hj2, hl⟩ := h1
        have hj : j = i := by exact_mod_cast hj2
        subst hj
        rw [hl] at hbs
        have htn : (true && endsBackslash l0) = true := by rw [hbs]; rfl
        have h1lt : 1 < (l0 :: ls).length := by
          have : j + 1 - j = 1 := by omega
          rw [this] at hbound
          exact hbound
        cases ls with
        | nil => simp at h1lt
        | cons l1 ls2 =>
          refine List.mem_cons_of_mem _ ?_
          rw [htn]
          have hidx : j + 1 - j = 1 := by omega
          rw [hidx, List.getD_cons_succ, List.getD_cons_zero]
          exact hdScan_tn_head curr P true l1 ls2 (j + 1)
      · refine List.mem_cons_of_mem _ ?_
        have hge2 : i + 1 ≤ j := by
          obtain ⟨k, -, hx⟩ := hdScan_mem curr P true ls (i + 1)
            (true && endsBackslash l0) _ h1
          simp only [Prod.mk.injEq] at hx
          have : j = i + 1 + k := by exact_mod_cast hx.2.1
          omega
        have hb2 : j + 1 - (i + 1) < ls.length := by
          simp only [List.length_cons] at hbound
          omega
        have hrec := hdScan_drag curr P ls (i + 1) (true && endsBackslash l0)
          j l h1 hbs hb2
        have hidx : j + 1 - i = (j + 1 - (i + 1)) + 1 := by omega
        rw [hidx, List.getD_cons_succ]
        exact hrec
    | false =>
      rw [hemit] at hmem
      rw [if_neg (by simp)] at hmem ⊢
      have hge2 : i + 1 ≤ j := by
        obtain ⟨k, -, hx⟩ := hdScan_mem curr P true ls (i + 1) tn _ hmem
        simp only [Prod.mk.injEq] at hx
        have : j = i + 1 + k := by exact_mod_cast hx.2.1
        omega
      have hb2 : j + 1 - (i + 1) < ls.length := by
        simp only [List.length_cons] at hbound
        omega
      have hrec := hdScan_drag curr P ls (i + 1) tn j l hmem hbs hb2
      have hidx : j + 1 - i = (j + 1 - (i + 1)) + 1 := by omega
      rw [hidx, List.getD_cons_succ]
      exact hrec

theorem insScan_mem (curr : String) (P : String → Bool) (wrap : Bool)
    (M : Nat) : ∀ (pl : List String) (k0 : Nat) (tn : Bool) (x : InsEntry),
    x ∈ (insScan curr P wrap M k0 tn pl).1 →
    ∃ k, k < pl.length ∧ x = (curr, M, k0 + k, pl.getD k "")
  | [], k0, tn, x, h => absurd h (by simp [insScan])
  | l :: pl, k0, tn, x, h => by
    rw [insScan] at h
    cases hemit : (P l || tn) with
    | true =>
      rw [hemit, if_pos rfl] at h
      dsimp only at h
      rcases List.mem_cons.mp h with h1 | h1
      · exact ⟨0, by simp [List.length_cons], by simpa using h1⟩
      · obtain ⟨k, hk, hx⟩ := insScan_mem curr P wrap M pl (k0 + 1)
          (wrap && endsBackslash l) x h1
        refine ⟨k + 1, by simp [List.length_cons]; omega, ?_⟩
        have harith : k0 + 1 + k = k0 + (k + 1) := by omega
        rw [hx, harith, List.getD_cons_succ]
    | false =>
      rw [hemit, if_neg (by simp)] at h
      obtain ⟨k, hk, hx⟩ := insScan_mem curr P wrap M pl (k0 + 1) tn x h
      refine ⟨k + 1, by simp [List.length_cons]; omega, ?_⟩
      have harith : k0 + 1 + k = k0 + (k + 1) := by omega
      rw [hx, harith, List.getD_cons_succ]

theorem insScan_tn_head (curr : String) (P : String → Bool) (wrap : Bool)
    (M : Nat) (l : String) (pl : List String) (k : Nat) :
    (curr, M, k, l) ∈ (insScan curr P wrap M k true (l :: pl)).1 := by
  rw [insScan, Bool.or_true, if_pos rfl]
  dsimp only
  exact List.mem_cons_self _ _

theorem insScan_drag (curr : String) (P : String → Bool) (M : Nat) :
    ∀ (pl : List String) (k0 : Nat) (tn : Bool) (k : Nat) (l : String),
    (curr, M, k, l) ∈ (insScan curr P true M k0 tn pl).1 →
    endsBackslash l = true → k + 1 - k0 < pl.length →
    (curr, M, k + 1, pl.getD (k + 1 - k0) "") ∈
      (insScan curr P true M k0 tn pl).1
  | [], _, _, _, _, hmem, _, _ => absurd hmem (by simp [insScan])
  | l0 :: pl, k0, tn, k, l, hmem, hbs, hbound => by
    rw [insScan] at hmem ⊢
    cases hemit : (P l0 || tn) with
    | true =>
      rw [hemit] at hmem
      rw [if_pos rfl] at hmem ⊢
      dsimp only at hmem ⊢
      rcases List.mem_cons.mp hmem with h1 | h1
      · simp only [Prod.mk.injEq] at h1
        obtain ⟨-, -, hk2, hl⟩ := h1
        subst hk2
        rw [hl] at hbs
        have htn : (true && endsBackslash l0) = true := by rw [hbs]; rfl
        have h1lt : 1 < (l0 :: pl).length := by
          have h : k + 1 - k = 1 := by omega
          rw [h] at hbound
          exact hbound
        cases pl with
        | nil => simp at h1lt
        | cons l1 pl2 =>
          refine List.mem_cons_of_mem _ ?_
          rw [htn]
          have hidx : k + 1 - k = 1 := by omega
          rw [hidx, List.getD_cons_succ, List.getD_cons_zero]
          exact insScan_tn_head curr P true M l1 pl2 (k + 1)
      · refine List.mem_cons_of_mem _ ?_
        have hge2 : k0 + 1 ≤ k := by
          obtain ⟨k2, -, hx⟩ := insScan_mem curr P true M pl (k0 + 1)
            (true && endsBackslash l0) _ h1
          simp only [Prod.mk.injEq] at hx
          omega
        have hb2 : k + 1 - (k0 + 1) < pl.length := by
          simp only [List.length_cons] at hbound
          omega
        have hrec := insScan_drag curr P M pl (k0 + 1)
          (true && endsBackslash l0) k l h1 hbs hb2
        have hidx : k + 1 - k0 = (k + 1 - (k0 + 1)) + 1 := by omega
        rw [hidx, List.getD_cons_succ]
        exact hrec
    | false =>
      rw [hemit] at hmem
      rw [if_neg (by simp)] at hmem ⊢
      have hge2 : k0 + 1 ≤ k := by
        obtain ⟨k2, -, hx⟩ := insScan_mem curr P true M pl (k0 + 1) tn _ hmem
        simp only [Prod.mk.injEq] at hx
        omega
      have hb2 : k + 1 - (k0 + 1) < pl.length := by
        simp only [List.length_cons] at hbound
        omega
      have hrec := insScan_drag curr P M pl (k0 + 1) tn k l hmem hbs hb2
      have hidx : k + 1 - k0 = (k + 1 - (k0 + 1)) + 1 := by omega
      rw [hidx, List.getD_cons_succ]
      exact hrec

theorem scanDelta_head (P : String → Bool) (wrap : Bool) (curr : String)
    (ls : List String) (ms : List GMatch) :
    scanDelta P wrap curr true (ls ++ [""]) ms =
      { gmatches := ms ++ (hdScan curr P wrap 1 false ls).1,
        dels := [], inss := [], insertlines := [], mode := .noCmd,
        takenext := (hdScan curr P wrap 1 false ls).2 } := by
  unfold scanDelta
  rw [withIndex_append, scanLines_append]
  rw [scanLines_head P wrap curr (ls ++ [""]).length ls 1 _
    (by simp only [List.length_append, List.length_cons, List.length_nil]
        omega)]
  dsimp only
  rw [withIndex]
  rw [show 1 + ls.length = (ls ++ [""]).length from by
    simp only [List.length_append, List.length_cons, List.length_nil]
    omega]
  rw [withIndex, scanLines, scanLines]
  rw [scanStep_head_last P wrap curr (ls ++ [""]).length _ rfl]

theorem parseCmd_d_of_a (s : String) (x : Nat × Nat)
    (h : parseCmd 'a' s = some x) : parseCmd 'd' s = none := by
  unfold parseCmd at h ⊢
  cases hd : s.data with
  | nil => rw [hd] at h
  | cons c cs =>
    rw [hd] at h
    dsimp only at h ⊢
    by_cases hc : c = 'a'
    · rw [if_neg (by rw [hc]; decide)]
    · rw [if_neg hc] at h
      exact absurd h (by simp)

theorem scanStep_not_head_cmd_a (P : String → Bool) (wrap : Bool)
    (curr : String) (total : Nat) (st : ScanState) (i : Nat) (l : String)
    (M N : Nat) (ha : parseCmd 'a' l = some (M, N)) :
    scanStep P wrap curr false total st i l =
      { st with inss := st.inss ++ [(M, N)], mode := .ins M N 1 } := by
  unfold scanStep
  rw [if_neg (by simp)]
  rw [parseCmd_d_of_a l (M, N) ha]
  dsimp only
  rw [ha]

theorem scanStep_payload_emit (P : String → Bool) (wrap : Bool)
    (curr : String) (total : Nat) (st : ScanState) (i : Nat) (l : String)
    (M N k : Nat) (hd : parseCmd 'd' l = none) (ha : parseCmd 'a' l = none)
    (hmode : st.mode = .ins M N k) (hk : k ≤ N)
    (hemit : (P l || st.takenext) = true) :
    scanStep P wrap curr false total st i l =
      { st with insertlines := st.insertlines ++ [(curr, M, k, l)],
                takenext := wrap && endsBackslash l,
                mode := .ins M N (k + 1) } := by
  unfold scanStep
  rw [if_neg (by simp), hd]
  dsimp only
  rw [ha]
  dsimp only
  rw [hmode]
  dsimp only
  rw [if_pos hk, hemit, if_pos rfl]

theorem scanStep_payload_skip (P : String → Bool) (wrap : Bool)
    (curr : String) (total : Nat) (st : ScanState) (i : Nat) (l : String)
    (M N k : Nat) (hd : parseCmd 'd' l = none) (ha : parseCmd 'a' l = none)
    (hmode : st.mode = .ins M N k) (hk : k ≤ N)
    (hemit : (P l || st.takenext) = false) :
    scanStep P wrap curr false total st i l =
      { st with mode := .ins M N (k + 1) } := by
  unfold scanStep
  rw [if_neg (by simp), hd]
  dsimp only
  rw [ha]
  dsimp only
  rw [hmode]
  dsimp only
  rw [if_pos hk, hemit, if_neg (by simp)]

theorem scanStep_payload_done (P : String → Bool) (wrap : Bool)
    (curr : String) (total : Nat) (st : ScanState) (i : Nat)
    (M N k : Nat) (hmode : st.mode = .ins M N k) (hk : ¬ k ≤ N) :
    scanStep P wrap curr false total st i "" =
      { st with mode := .noCmd } := by
  unfold scanStep
  rw [if_neg (by simp)]
  rw [show parseCmd 'd' "" = none from rfl]
  dsimp only
  rw [show parseCmd 'a' "" = none from rfl]
  dsimp only
  rw [hmode]
  dsimp only
  rw [if_neg hk]

theorem scanLines_ins_block (P : String → Bool) (wrap : Bool) (curr : String)
    (total M N : Nat) : ∀ (pl : List String) (i k : Nat) (st : ScanState),
    st.mode = .ins M N k → k + pl.length ≤ N + 1 →
    (∀ l ∈ pl, parseCmd 'd' l = none ∧ parseCmd 'a' l = none) →
    scanLines P wrap curr false total st (withIndex i pl) =
      { st with
        insertlines := st.insertlines ++
          (insScan curr P wrap M k st.takenext pl).1,
        takenext := (insScan curr P wrap M k st.takenext pl).2,
        mode := .ins M N (k + pl.length) } := by
  intro pl
  induction pl with
  | nil =>
    intro i k st hmode _ _
    simp only [withIndex, scanLines, insScan, List.append_nil,
      List.length_nil, Nat.add_zero]
    rw [← hmode]
  | cons l pl ih =>
    intro i k st hmode hle hcmds
    have hk : k ≤ N := by simp only [List.length_cons] at hle; omega
    rw [withIndex, scanLines]
    cases hemit : (P l || st.takenext) with
    | true =>
      rw [scanStep_payload_emit P wrap curr total st i l M N k
        (hcmds l (List.mem_cons_self l pl)).1
        (hcmds l (List.mem_cons_self l pl)).2 hmode hk hemit]
      rw [ih (i + 1) (k + 1) _ rfl
        (by simp only [List.length_cons] at hle ⊢; omega)
        (fun l2 hl2 => hcmds l2 (List.mem_cons_of_mem l hl2))]
      rw [insScan, hemit, if_pos rfl]
      dsimp only
      simp only [List.append_assoc, List.singleton_append, List.length_cons]
      have harith : k + 1 + pl.length = k + (pl.length + 1) := by omega
      rw [harith]
    | false =>
      rw [scanStep_payload_skip P wrap curr total st i l M N k
        (hcmds l (List.mem_cons_self l pl)).1
        (hcmds l (List.mem_cons_self l pl)).2 hmode hk hemit]
      rw [ih (i + 1) (k + 1) _ rfl
        (by simp only [List.length_cons] at hle ⊢; omega)
        (fun l2 hl2 => hcmds l2 (List.mem_cons_of_mem l hl2))]
      rw [insScan, hemit, if_neg (by simp)]
      simp only [List.length_cons]
      have harith : k + 1 + pl.length = k + (pl.length + 1) := by omega
      rw [harith]

theorem scanDelta_ins_block (P : String → Bool) (wrap : Bool)
    (curr cmdline : String) (payload : List String) (M : Nat)
    (ms : List GMatch)
    (hcmd : parseCmd 'a' cmdline = some (M, payload.length))
    (hpl : ∀ l ∈ payload, parseCmd 'd' l = none ∧ parseCmd 'a' l = none) :
    scanDelta P wrap curr false (cmdline :: payload ++ [""]) ms =
      { gmatches := ms, dels := [],
        inss := [(M, payload.length)],
        insertlines := (insScan curr P wrap M 1 false payload).1,
        mode := .noCmd,
        takenext := (insScan curr P wrap M 1 false payload).2 } := by
  unfold scanDelta
  rw [show withIndex 1 (cmdline :: payload ++ [""]) =
    (1, cmdline) :: withIndex 2 (payload ++ [""]) from rfl]
  rw [scanLines]
  rw [scanStep_not_head_cmd_a P wrap curr _ _ 1 cmdline M payload.length hcmd]
  rw [withIndex_append, scanLines_append]
  rw [scanLines_ins_block P wrap curr _ M payload.length payload 2 1 _ rfl
    (by omega) hpl]
  dsimp only
  rw [withIndex, withIndex, scanLines, scanLines]
  rw [scanStep_payload_done P wrap curr _ _ _ M payload.length
    (1 + payload.length) rfl (by omega)]
  simp

/-- C5: with wrap_continuations true, whenever an emitted matching line
ends with a backslash the next physical line is also emitted with its
own line number even if it does not match P, and continuations chain
(the dragged line is subject to the same rule); this holds both when
scanning head's literal text (first part: index j emitted, line j ends
in a backslash and line j+1 exists, so index j+1 is emitted) and when
scanning an insertion payload inside a delta-text script (second part,
for offsets inside the block); spec scenario 6 is the concrete head
case. -/
theorem grep_wrap_continuations :
    (∀ (P : String → Bool) (curr : String) (ls : List String) (j : Nat)
      (l : String),
      (curr, (j : Int), l) ∈
        (scanDelta P true curr true (ls ++ [""]) []).gmatches →
      endsBackslash l = true → j < ls.length →
      (curr, ((j + 1 : Nat) : Int), ls.getD j "") ∈
        (scanDelta P true curr true (ls ++ [""]) []).gmatches) ∧
    (∀ (P : String → Bool) (curr cmdline : String) (payload : List String)
      (M : Nat) (ms : List GMatch) (k : Nat) (l : String),
      parseCmd 'a' cmdline = some (M, payload.length) →
      (∀ l2 ∈ payload, parseCmd 'd' l2 = none ∧ parseCmd 'a' l2 = none) →
      (curr, M, k, l) ∈ (scanDelta P true curr false
        (cmdline :: payload ++ [""]) ms).insertlines →
      endsBackslash l = true → k < payload.length →
      (curr, M, k + 1, payload.getD k "") ∈ (scanDelta P true curr false
        (cmdline :: payload ++ [""]) ms).insertlines) ∧
    grep contFile (litMatch "foo") "rlL" true =
      .ok [[.str "1.1", .int 1, .str "foo\\"],
           [.str "1.1", .int 2, .str "bar"]] := by
  refine ⟨?_, ?_, rfl⟩
  · intro P curr ls j l hmem hbs hlt
    rw [scanDelta_head P true curr ls []] at hmem ⊢
    dsimp only at hmem ⊢
    rw [List.nil_append] at hmem ⊢
    have hb : j + 1 - 1 < ls.length := by omega
    have := hdScan_drag curr P ls 1 false j l hmem hbs hb
    have hidx : j + 1 - 1 = j := by omega
    rw [hidx] at this
    exact this
  · intro P curr cmdline payload M ms k l hcmd hpl hmem hbs hlt
    rw [scanDelta_ins_block P true curr cmdline payload M ms hcmd hpl]
      at hmem ⊢
    dsimp only at hmem ⊢
    have hb : k + 1 - 1 < payload.length := by omega
    have := insScan_drag curr P M payload 1 false k l hmem hbs hb
    have hidx : k + 1 - 1 = k := by omega
    rw [hidx] at this
    exact this

theorem grep_wrap_continuations_witness :
    (("1.1", (1 : Int), "foo\\") ∈ (scanDelta (litMatch "foo") true "1.1"
      true (["foo\\", "bar"] ++ [""]) []).gmatches ∧
     endsBackslash "foo\\" = true ∧ 1 < 2 ∧
     ("1.1", ((1 + 1 : Nat) : Int), List.getD ["foo\\", "bar"] 1 "") ∈
       (scanDelta (litMatch "foo") true "1.1" true
         (["foo\\", "bar"] ++ [""]) []).gmatches) ∧
    (parseCmd 'a' "a3 2" = some (3, 2) ∧
     ("1.1", 3, 1, "x\\") ∈ (scanDelta (litMatch "x") true "1.1" false
       ("a3 2" :: ["x\\", "y"] ++ [""]) []).insertlines ∧
     endsBackslash "x\\" = true ∧ 1 < 2 ∧
     ("1.1", 3, 1 + 1, List.getD ["x\\", "y"] 1 "") ∈
       (scanDelta (litMatch "x") true "1.1" false
         ("a3 2" :: ["x\\", "y"] ++ [""]) []).insertlines) :=
  ⟨⟨by decide, by decide, by decide,
    grep_wrap_continuations.1 (litMatch "foo") "1.1" ["foo\\", "bar"] 1
      "foo\\" (by decide) (by decide) (by decide)⟩,
   ⟨by decide, by decide, by decide, by decide,
    grep_wrap_continuations.2.1 (litMatch "x") "1.1" "a3 2" ["x\\", "y"] 3
      [] 1 "x\\" (by decide) (by decide) (by decide) (by decide)
      (by decide)⟩⟩

end Rcsgrep
